import Mathlib

/-!
Verification of the proof-of-work search core of the scavenger miner
(`src/main.rs`): the `Challenge` data model, the preimage encoder
`build_preimage`, the difficulty predicate `meets_difficulty`, and the
bounded nonce-search loop `mine_challenge`.

Bytes are modelled as natural numbers below 256 where the value matters;
digests are lists of bytes (`List Nat`), strings are Lean `String`s.
The external AshMaize hash is treated as an opaque oracle parameter
`String → List Nat`, matching the Hash Oracle contract of the spec.  The
wall-clock-derived starting nonce is an explicit parameter `S`, and
64-bit wrapping arithmetic is `% 2 ^ 64`.
-/

namespace Scavenger

/-- The `Challenge` struct of `src/main.rs` (fields in declaration order).
`day` and `challenge_number` are `u32` in the source, modelled as `Nat`. -/
structure Challenge where
  challenge_id : String
  day : Nat
  challenge_number : Nat
  difficulty : String
  no_pre_mine : String
  latest_submission : String
  no_pre_mine_hour : String
  deriving DecidableEq, Repr

/-- Value of a single hex digit character, as accepted by `hex::decode`
(digits `0`-`9`, lowercase `a`-`f`, uppercase `A`-`F`). -/
def hexVal (c : Char) : Option Nat :=
  if '0' ≤ c ∧ c ≤ '9' then some (c.toNat - '0'.toNat)
  else if 'a' ≤ c ∧ c ≤ 'f' then some (c.toNat - 'a'.toNat + 10)
  else if 'A' ≤ c ∧ c ≤ 'F' then some (c.toNat - 'A'.toNat + 10)
  else none

/-- Model of hex decoding on a character list: pairs of hex digits become bytes;
an odd-length input or a non-hex character makes decoding fail. -/
def hexDecodeChars : List Char → Option (List Nat)
  | [] => some []
  | [_] => none
  | c1 :: c2 :: rest =>
    match hexVal c1, hexVal c2, hexDecodeChars rest with
    | some hi, some lo, some bs => some ((16 * hi + lo) :: bs)
    | _, _, _ => none

/-- Model of the hex decode call made by `meets_difficulty` on a string. -/
def hexDecode (s : String) : Option (List Nat) :=
  hexDecodeChars s.data

/-- The byte-comparison loop of `meets_difficulty`
(`for i in 0..4.min(diff_bytes.len())`), written structurally: the
first list is the digest, the second the (already truncated) difficulty
bytes.  Running out of difficulty bytes returns `true` (loop falls
through); running out of digest bytes first returns `false`
(`i >= hash.len()`); otherwise the bytes at the current index decide or
the loop advances. -/
def cmpLoop : List Nat → List Nat → Bool
  | _, [] => true
  | [], _ :: _ => false
  | h :: hs, d :: ds =>
    if h < d then true
    else if h > d then false
    else cmpLoop hs ds

/-- Embedding of `meets_difficulty` from lines 199-217 of the source: decode the
difficulty as hex (failure ⇒ `false`), then compare the digest against
the first `min(4, diff_bytes.len())` difficulty bytes. -/
def meets_difficulty (hash : List Nat) (difficulty : String) : Bool :=
  match hexDecode difficulty with
  | none => false
  | some diff_bytes => cmpLoop hash (diff_bytes.take 4)

/-- Embedding of `build_preimage` from lines 219-234 of the source: the formatted
concatenation of nonce text, address, and five challenge fields, with
no separators. -/
def build_preimage (nonce : String) (address : String) (c : Challenge) : String :=
  nonce ++ address ++ c.challenge_id ++ c.difficulty ++ c.no_pre_mine ++
    c.latest_submission ++ c.no_pre_mine_hour

/-- Lowercase hex digit character for a value below 16, as produced by
the lowercase hex format specifier of Rust. -/
def hexDigit (n : Nat) : Char :=
  if n < 10 then Char.ofNat (Char.toNat '0' + n)
  else Char.ofNat (Char.toNat 'a' + (n - 10))

/-- The `k` low-order hex digits of `n`, most significant first (the
zero-padded fixed-width rendering used by `format!` with width `k`). -/
def natToHexDigits : Nat → Nat → List Char
  | 0, _ => []
  | k + 1, n => natToHexDigits k (n / 16) ++ [hexDigit (n % 16)]

/-- Rendering of a 64-bit nonce by the 016x format specifier: exactly 16
lowercase zero-padded hex digits, nothing prepended. -/
def nonceHex16 (n : Nat) : String :=
  String.mk (natToHexDigits 16 n)

/-- Numeric value of a hex-digit character list read most significant
first (used to state that `nonceHex16` really renders its input). -/
def hexListVal (cs : List Char) : Nat :=
  cs.foldl (fun acc c => 16 * acc + (hexVal c).getD 0) 0

/-- The search loop of `mine_challenge` (`src/main.rs` lines 263-294),
parameterised by the hash oracle (the per-round AshMaize context) and
the wall-clock starting nonce `S` (`random_start`).  `i` is the loop
counter reached so far, `k` the remaining iterations; attempt `i` uses
nonce `random_start.wrapping_add(i)`, i.e. `(S + i) % 2 ^ 64`. -/
def mineLoop (oracle : String → List Nat) (address : String) (c : Challenge)
    (S : Nat) : Nat → Nat → Option String
  | _, 0 => none
  | i, k + 1 =>
    let nonce := (S + i) % 2 ^ 64
    let nonce_hex := nonceHex16 nonce
    let preimage := build_preimage nonce_hex address c
    if meets_difficulty (oracle preimage) c.difficulty then some nonce_hex
    else mineLoop oracle address c S (i + 1) k

/-- Embedding of `mine_challenge` from lines 236-298 of the source, restricted to its
computational content: run the search loop from counter 0 for
`max_iterations` attempts; `Some nonce_hex` on success, `none` on
exhaustion. -/
def mine_challenge (oracle : String → List Nat) (address : String) (c : Challenge)
    (S : Nat) (max_iterations : Nat) : Option String :=
  mineLoop oracle address c S 0 max_iterations

/-- Instrumented search loop: additionally records the nonce of every
attempt actually evaluated, in order.  Mirrors `mineLoop` exactly. -/
def mineTrace (oracle : String → List Nat) (address : String) (c : Challenge)
    (S : Nat) : Nat → Nat → List Nat × Option String
  | _, 0 => ([], none)
  | i, k + 1 =>
    let nonce := (S + i) % 2 ^ 64
    let nonce_hex := nonceHex16 nonce
    let preimage := build_preimage nonce_hex address c
    if meets_difficulty (oracle preimage) c.difficulty then ([nonce], some nonce_hex)
    else
      let rest := mineTrace oracle address c S (i + 1) k
      (nonce :: rest.1, rest.2)

/-! ### Helper lemmas about the byte-comparison loop -/

/-- The loop falls through immediately when there are no difficulty bytes. -/
theorem cmpLoop_nil (xs : List Nat) : cmpLoop xs [] = true := by
  cases xs <;> rfl

/-- The loop only ever inspects the first `ys.length` digest bytes. -/
theorem cmpLoop_take : ∀ (xs ys : List Nat), cmpLoop xs ys = cmpLoop (xs.take ys.length) ys
  | xs, [] => by rw [cmpLoop_nil, cmpLoop_nil]
  | [], _ :: _ => rfl
  | x :: xs, y :: ys => by
    simp only [cmpLoop, List.length_cons, List.take_succ_cons]
    rw [cmpLoop_take xs ys]

/-- Lexicographic order on `List Nat` is transitive. -/
theorem lexLtTrans : ∀ {xs ys zs : List Nat},
    List.Lex (· < ·) xs ys → List.Lex (· < ·) ys zs → List.Lex (· < ·) xs zs := by
  intro xs ys zs h1 h2
  induction h1 generalizing zs with
  | nil =>
    cases h2 with
    | cons h => exact List.Lex.nil
    | rel h => exact List.Lex.nil
  | cons h ih =>
    cases h2 with
    | cons h2 => exact List.Lex.cons (ih h2)
    | rel h2 => exact List.Lex.rel h2
  | rel h =>
    cases h2 with
    | cons h2 => exact List.Lex.rel h
    | rel h2 => exact List.Lex.rel (Nat.lt_trans h h2)

/-- On equal-length byte lists, the comparison loop decides exactly
"equal, or lexicographically smaller". -/
theorem cmpLoop_iff_lex : ∀ (xs ys : List Nat), xs.length = ys.length →
    (cmpLoop xs ys = true ↔ xs = ys ∨ List.Lex (· < ·) xs ys)
  | [], [], _ => by
    rw [cmpLoop_nil]
    simp
  | [], _ :: _, h => by simp at h
  | _ :: _, [], h => by simp at h
  | x :: xs, y :: ys, h => by
    have hlen : xs.length = ys.length := by simpa using h
    simp only [cmpLoop]
    rcases Nat.lt_trichotomy x y with hxy | hxy | hxy
    · simp only [if_pos hxy, true_iff]
      exact Or.inr (List.Lex.rel hxy)
    · subst hxy
      simp only [lt_self_iff_false, if_false, gt_iff_lt]
      rw [cmpLoop_iff_lex xs ys hlen]
      constructor
      · rintro (rfl | hlex)
        · exact Or.inl rfl
        · exact Or.inr (List.Lex.cons hlex)
      · rintro (heq | hlex)
        · exact Or.inl (by injection heq)
        · cases hlex with
          | cons h2 => exact Or.inr h2
          | rel h2 => exact absurd h2 (lt_irrefl x)
    · have hne : ¬ x < y := Nat.lt_asymm hxy
      simp only [if_neg hne, gt_iff_lt, if_pos hxy, Bool.false_eq_true, false_iff]
      rintro (heq | hlex)
      · injection heq with h1 _
        exact absurd h1 (Nat.ne_of_gt hxy)
      · cases hlex with
        | cons h2 => exact absurd rfl (Nat.ne_of_gt hxy)
        | rel h2 => exact absurd h2 (Nat.lt_asymm hxy)

/-- Taking the first four bytes is the same as taking the compared
window `min 4 (length)`. -/
theorem take_four_eq_take_min (bs : List Nat) : bs.take 4 = bs.take (min 4 bs.length) := by
  rcases Nat.le_total 4 bs.length with h | h
  · rw [Nat.min_eq_left h]
  · rw [Nat.min_eq_right h, List.take_of_length_le h, List.take_length]

/-! ### Helper lemmas about the fixed-width hex rendering -/

/-- Each hex digit value below 16 renders to a lowercase hex character. -/
theorem hexDigit_mem : ∀ v, v < 16 → hexDigit v ∈ ("0123456789abcdef").data := by decide

/-- Rendering a digit and reading it back is the identity below 16. -/
theorem hexVal_hexDigit : ∀ v, v < 16 → hexVal (hexDigit v) = some v := by decide

/-- The fixed-width rendering produces exactly `k` characters. -/
theorem natToHexDigits_length : ∀ (k n : Nat), (natToHexDigits k n).length = k
  | 0, _ => rfl
  | k + 1, n => by
    simp only [natToHexDigits, List.length_append, List.length_cons, List.length_nil,
      natToHexDigits_length k]

/-- Every character of the fixed-width rendering is a lowercase hex digit. -/
theorem natToHexDigits_mem : ∀ (k n : Nat), ∀ ch ∈ natToHexDigits k n,
    ch ∈ ("0123456789abcdef").data
  | 0, _, _, h => absurd h (List.not_mem_nil _)
  | k + 1, n, ch, h => by
    rcases List.mem_append.mp h with h1 | h2
    · exact natToHexDigits_mem k (n / 16) ch h1
    · rw [List.mem_singleton.mp h2]
      exact hexDigit_mem (n % 16) (Nat.mod_lt n (by norm_num))

/-- Reading back the `k` rendered hex digits recovers `n` (below `16 ^ k`),
stated with a running accumulator for the fold. -/
theorem foldl_natToHexDigits : ∀ (k n acc : Nat), n < 16 ^ k →
    (natToHexDigits k n).foldl (fun a c => 16 * a + (hexVal c).getD 0) acc =
      acc * 16 ^ k + n
  | 0, n, acc, hn => by
    have : n = 0 := Nat.lt_one_iff.mp (by simpa using hn)
    simp [natToHexDigits, this]
  | k + 1, n, acc, hn => by
    have hdiv : n / 16 < 16 ^ k := by
      rw [Nat.div_lt_iff_lt_mul (by norm_num)]
      calc n < 16 ^ (k + 1) := hn
        _ = 16 ^ k * 16 := by rw [pow_succ]
    simp only [natToHexDigits, List.foldl_append, List.foldl_cons, List.foldl_nil]
    rw [foldl_natToHexDigits k (n / 16) acc hdiv,
      hexVal_hexDigit (n % 16) (Nat.mod_lt n (by norm_num))]
    have hmod := Nat.div_add_mod n 16
    calc 16 * (acc * 16 ^ k + n / 16) + (some (n % 16)).getD 0
        = acc * (16 ^ k * 16) + (16 * (n / 16) + n % 16) := by
          simp only [Option.getD_some]; ring
      _ = acc * 16 ^ (k + 1) + n := by rw [pow_succ, hmod]

/-! ### Helper lemmas about the search loop -/

/-- Peeling one element off the nonce window of the loop. -/
theorem rangeMapSucc (k S i m : Nat) :
    (List.range (k + 1)).map (fun j => (S + i + j) % m) =
      ((S + i) % m) :: (List.range k).map (fun j => (S + (i + 1) + j) % m) := by
  rw [List.range_succ_eq_map, List.map_cons, List.map_map]
  refine congrArg₂ _ rfl (List.map_congr_left ?_)
  intro a _
  exact congrArg (· % m) (by omega)

/-- The instrumented loop computes the same result as the plain loop. -/
theorem mineTrace_snd (oracle : String → List Nat) (address : String) (c : Challenge)
    (S : Nat) : ∀ (k i : Nat),
    (mineTrace oracle address c S i k).2 = mineLoop oracle address c S i k
  | 0, _ => rfl
  | k + 1, i => by
    simp only [mineTrace, mineLoop]
    split
    · rfl
    · exact mineTrace_snd oracle address c S k (i + 1)

/-- The nonces actually evaluated form a prefix of the planned window
`(S + i) % 2 ^ 64, (S + i + 1) % 2 ^ 64, ...`. -/
theorem mineTrace_prefix_window (oracle : String → List Nat) (address : String) (c : Challenge)
    (S : Nat) : ∀ (k i : Nat),
    (mineTrace oracle address c S i k).1 <+: (List.range k).map (fun j => (S + i + j) % 2 ^ 64)
  | 0, _ => ⟨[], rfl⟩
  | k + 1, i => by
    rw [rangeMapSucc k S i (2 ^ 64)]
    simp only [mineTrace]
    split
    · exact ⟨(List.range k).map (fun j => (S + (i + 1) + j) % 2 ^ 64), rfl⟩
    · obtain ⟨t, ht⟩ := mineTrace_prefix_window oracle address c S k (i + 1)
      exact ⟨t, by rw [List.cons_append, ht]⟩

/-- On exhaustion the loop has evaluated the whole planned window. -/
theorem mineTrace_none (oracle : String → List Nat) (address : String) (c : Challenge)
    (S : Nat) : ∀ (k i : Nat), (mineTrace oracle address c S i k).2 = none →
    (mineTrace oracle address c S i k).1 = (List.range k).map (fun j => (S + i + j) % 2 ^ 64)
  | 0, _, _ => rfl
  | k + 1, i, hnone => by
    rw [rangeMapSucc k S i (2 ^ 64)]
    simp only [mineTrace] at hnone ⊢
    split
    · rename_i hm
      rw [if_pos hm] at hnone
      exact absurd hnone (by simp)
    · rename_i hm
      rw [if_neg hm] at hnone
      exact congrArg₂ _ rfl (mineTrace_none oracle address c S k (i + 1) hnone)

/-- Characterisation of `meets_difficulty` on digests that cover the
compared window: it decides "equal or lexicographically below" on the
window `min 4 (decoded length)`.  Shared backbone of the difficulty
claims. -/
theorem meets_difficulty_lex_char (hash : List Nat) (difficulty : String) (bs : List Nat)
    (hdec : hexDecode difficulty = some bs)
    (hlen : min 4 bs.length ≤ hash.length) :
    meets_difficulty hash difficulty = true ↔
      (hash.take (min 4 bs.length) = bs.take (min 4 bs.length) ∨
        List.Lex (· < ·) (hash.take (min 4 bs.length)) (bs.take (min 4 bs.length))) := by
  have hmeets : meets_difficulty hash difficulty = cmpLoop hash (bs.take 4) := by
    simp [meets_difficulty, hdec]
  have hlen4 : (bs.take 4).length = min 4 bs.length := List.length_take ..
  rw [hmeets, cmpLoop_take hash (bs.take 4), hlen4, take_four_eq_take_min bs]
  exact cmpLoop_iff_lex _ _ (by rw [List.length_take, List.length_take]; omega)

/-- The comparison loop returns `false` when the digest runs out first,
i.e. when the digest is strictly shorter and ties on all its bytes. -/
theorem cmpLoop_short_tie : ∀ (xs ys : List Nat), xs.length < ys.length →
    (∀ i, i < xs.length → xs.getD i 0 = ys.getD i 0) → cmpLoop xs ys = false
  | [], [], h, _ => absurd h (lt_irrefl 0)
  | [], _ :: _, _, _ => rfl
  | _ :: _, [], h, _ => by simp at h
  | x :: xs, y :: ys, h, htie => by
    have hx : x = y := by simpa using htie 0 (Nat.succ_pos _)
    subst hx
    simp only [cmpLoop, lt_irrefl, if_false, gt_iff_lt]
    exact cmpLoop_short_tie xs ys (by simpa using h)
      (fun i hi => by simpa using htie (i + 1) (by simpa using hi))

/-- Elements of a `take` prefix agree with the original list. -/
theorem getD_take_eq (l : List Nat) (n i : Nat) (hi : i < n) :
    (l.take n).getD i 0 = l.getD i 0 := by
  simp only [List.getD_eq_getElem?_getD, List.getElem?_take, if_pos hi]

/-! ### Difficulty Evaluator claims -/

/-- C1: for every digest covering the compared window and every
difficulty that decodes as hex, `meets_difficulty` returns `true` iff
the digest is lexicographically less-than-or-equal to the decoded
difficulty bytes over the first `min 4 (decoded length)` bytes, unsigned
bytes most significant first, with short-circuit tie-breaking (ties on
all compared bytes succeed). -/
theorem meets_difficulty_iff_lex (hash : List Nat) (difficulty : String) (bs : List Nat)
    (hdec : hexDecode difficulty = some bs)
    (hlen : min 4 bs.length ≤ hash.length) :
    meets_difficulty hash difficulty = true ↔
      (hash.take (min 4 bs.length) = bs.take (min 4 bs.length) ∨
        List.Lex (· < ·) (hash.take (min 4 bs.length)) (bs.take (min 4 bs.length))) :=
  meets_difficulty_lex_char hash difficulty bs hdec hlen

/-- C1 witness: a concrete digest, equal to the target on the window. -/
theorem meets_difficulty_iff_lex_witness :
    meets_difficulty [0, 1, 2, 3, 4] "00010203" = true ↔
      (([0, 1, 2, 3, 4] : List Nat).take (min 4 ([0, 1, 2, 3] : List Nat).length) =
          ([0, 1, 2, 3] : List Nat).take (min 4 ([0, 1, 2, 3] : List Nat).length) ∨
        List.Lex (· < ·)
          (([0, 1, 2, 3, 4] : List Nat).take (min 4 ([0, 1, 2, 3] : List Nat).length))
          (([0, 1, 2, 3] : List Nat).take (min 4 ([0, 1, 2, 3] : List Nat).length))) :=
  meets_difficulty_iff_lex [0, 1, 2, 3, 4] "00010203" [0, 1, 2, 3] (by decide) (by decide)

/-- C2 counterexample: the digest `[0]` is shorter than the compared
window of difficulty `"05000000"` (four decoded bytes), yet
`meets_difficulty` returns `true` — its first byte is already strictly
below the target, so the loop succeeds before reaching the missing
bytes. -/
theorem meets_difficulty_short_digest_cex :
    hexDecode "05000000" = some [5, 0, 0, 0] ∧
      ([0] : List Nat).length < min 4 ([5, 0, 0, 0] : List Nat).length ∧
      meets_difficulty [0] "05000000" = true := by decide

/-- C2 (amended): a difficulty that fails hex decoding never matches;
and a digest shorter than the compared window makes `meets_difficulty`
return `false` exactly in the runs that reach past the end of the digest,
i.e. when every digest byte ties with the corresponding difficulty
byte. -/
theorem meets_difficulty_error_handling (hash : List Nat) (difficulty : String) :
    (hexDecode difficulty = none → meets_difficulty hash difficulty = false) ∧
      (∀ bs, hexDecode difficulty = some bs → hash.length < min 4 bs.length →
        (∀ i, i < hash.length → hash.getD i 0 = bs.getD i 0) →
        meets_difficulty hash difficulty = false) := by
  constructor
  · intro hnone
    simp [meets_difficulty, hnone]
  · intro bs hdec hshort htie
    have hmeets : meets_difficulty hash difficulty = cmpLoop hash (bs.take 4) := by
      simp [meets_difficulty, hdec]
    rw [hmeets]
    refine cmpLoop_short_tie hash (bs.take 4) (by rw [List.length_take]; omega) ?_
    intro i hi
    rw [getD_take_eq bs 4 i (by omega)]
    exact htie i hi

/-- C2 witness: a malformed difficulty, and a short all-tying digest,
both fail. -/
theorem meets_difficulty_error_handling_witness :
    meets_difficulty [1, 2, 3] "zz" = false ∧ meets_difficulty [5] "05000000" = false :=
  ⟨(meets_difficulty_error_handling [1, 2, 3] "zz").1 (by decide),
    (meets_difficulty_error_handling [5] "05000000").2 [5, 0, 0, 0] (by decide) (by decide)
      (by decide)⟩

/-- C7: `meets_difficulty` is monotone in the digest over the compared
window: a digest lexicographically below a satisfying digest on the
window also satisfies the difficulty. -/
theorem meets_difficulty_mono (d1 d2 : List Nat) (difficulty : String) (bs : List Nat)
    (hdec : hexDecode difficulty = some bs)
    (h1 : min 4 bs.length ≤ d1.length) (h2 : min 4 bs.length ≤ d2.length)
    (hlex : List.Lex (· < ·) (d1.take (min 4 bs.length)) (d2.take (min 4 bs.length)))
    (hd2 : meets_difficulty d2 difficulty = true) :
    meets_difficulty d1 difficulty = true := by
  rw [meets_difficulty_lex_char d2 difficulty bs hdec h2] at hd2
  rw [meets_difficulty_lex_char d1 difficulty bs hdec h1]
  rcases hd2 with heq | hlex2
  · rw [heq] at hlex
    exact Or.inr hlex
  · exact Or.inr (lexLtTrans hlex hlex2)

/-- C7 witness: `[0,0,0,0,9]` is lexicographically below `[0,0,0,1]` on
the window, and the latter meets difficulty `"00000001"`. -/
theorem meets_difficulty_mono_witness :
    meets_difficulty [0, 0, 0, 0, 9] "00000001" = true :=
  meets_difficulty_mono [0, 0, 0, 0, 9] [0, 0, 0, 1] "00000001" [0, 0, 0, 1]
    (by decide) (by decide) (by decide) (by decide) (by decide)

/-- C8: the evaluation reads only the first `min 4 (decoded length)`
digest bytes — truncating the digest to that window does not change the
result, and (on digests covering the window) neither does appending
arbitrary bytes after it. -/
theorem meets_difficulty_window (difficulty : String) (bs : List Nat) (hash : List Nat)
    (hdec : hexDecode difficulty = some bs) :
    meets_difficulty hash difficulty =
        meets_difficulty (hash.take (min 4 bs.length)) difficulty ∧
      (∀ junk, min 4 bs.length ≤ hash.length →
        meets_difficulty (hash ++ junk) difficulty = meets_difficulty hash difficulty) := by
  have e1 : ∀ h2 : List Nat, meets_difficulty h2 difficulty =
      cmpLoop (h2.take (min 4 bs.length)) (bs.take 4) := by
    intro h2
    simp only [meets_difficulty, hdec]
    rw [cmpLoop_take h2 (bs.take 4), List.length_take]
  constructor
  · rw [e1 hash, e1 (hash.take (min 4 bs.length)), List.take_take, Nat.min_self]
  · intro junk hlen
    rw [e1 (hash ++ junk), e1 hash, List.take_append_of_le_length hlen]

/-- C8 witness: a two-byte difficulty `"00ff"` compares only the first
two digest bytes. -/
theorem meets_difficulty_window_witness :
    meets_difficulty [0, 1, 2, 3, 4] "00ff" =
        meets_difficulty (([0, 1, 2, 3, 4] : List Nat).take
          (min 4 ([0, 255] : List Nat).length)) "00ff" ∧
      (∀ junk, min 4 ([0, 255] : List Nat).length ≤ ([0, 1, 2, 3, 4] : List Nat).length →
        meets_difficulty ([0, 1, 2, 3, 4] ++ junk) "00ff" =
          meets_difficulty [0, 1, 2, 3, 4] "00ff") :=
  meets_difficulty_window "00ff" [0, 255] [0, 1, 2, 3, 4] (by decide)

/-- C10: a difficulty that decodes to zero bytes is met by every digest:
the comparison loop runs over zero bytes and falls through to `true`. -/
theorem meets_difficulty_empty (difficulty : String) (hash : List Nat)
    (hdec : hexDecode difficulty = some []) :
    meets_difficulty hash difficulty = true := by
  simp only [meets_difficulty, hdec]
  exact cmpLoop_nil hash

/-- C10 witness: the empty difficulty string matches the empty digest
and a nonempty digest alike. -/
theorem meets_difficulty_empty_witness :
    meets_difficulty [] "" = true ∧ meets_difficulty [7, 8] "" = true :=
  ⟨meets_difficulty_empty "" [] (by decide), meets_difficulty_empty "" [7, 8] (by decide)⟩

/-- A successful loop result is the 16-hex-digit rendering of one of the
planned nonces. -/
theorem mineLoop_some (oracle : String → List Nat) (address : String) (c : Challenge)
    (S : Nat) : ∀ (k i : Nat) (r : String), mineLoop oracle address c S i k = some r →
    ∃ j, j < k ∧ r = nonceHex16 ((S + i + j) % 2 ^ 64)
  | 0, i, r, h => absurd h (by simp [mineLoop])
  | k + 1, i, r, h => by
    simp only [mineLoop] at h
    split at h
    · exact ⟨0, Nat.succ_pos k, (Option.some.inj h).symm⟩
    · obtain ⟨j, hj, hr⟩ := mineLoop_some oracle address c S k (i + 1) r h
      refine ⟨j + 1, by omega, ?_⟩
      rw [hr]
      exact congrArg (fun m => nonceHex16 (m % 2 ^ 64)) (by omega)

/-- Early-exit characterisation of the instrumented loop: if attempt `j`
(counting from the current position) is the first satisfying one and is
within budget, the loop stops there, having evaluated exactly the
attempts up to `j`. -/
theorem mineTrace_found (oracle : String → List Nat) (address : String) (c : Challenge)
    (S : Nat) : ∀ (j k i : Nat), j < k →
    meets_difficulty (oracle (build_preimage (nonceHex16 ((S + i + j) % 2 ^ 64)) address c))
      c.difficulty = true →
    (∀ t, t < j →
      meets_difficulty (oracle (build_preimage (nonceHex16 ((S + i + t) % 2 ^ 64)) address c))
        c.difficulty = false) →
    mineTrace oracle address c S i k =
      ((List.range (j + 1)).map (fun t => (S + i + t) % 2 ^ 64),
        some (nonceHex16 ((S + i + j) % 2 ^ 64)))
  | 0, 0, _, hj, _, _ => absurd hj (lt_irrefl 0)
  | 0, k + 1, i, _, hsucc, _ => by
    have hs : meets_difficulty
        (oracle (build_preimage (nonceHex16 ((S + i) % 2 ^ 64)) address c))
        c.difficulty = true := hsucc
    simp only [mineTrace]
    rw [if_pos hs]
    rfl
  | j + 1, 0, _, hj, _, _ => absurd hj (Nat.not_lt_zero _)
  | j + 1, k + 1, i, hj, hsucc, hfail => by
    have e1 : S + i + (j + 1) = S + (i + 1) + j := by omega
    rw [e1] at hsucc
    have hfail0 : meets_difficulty
        (oracle (build_preimage (nonceHex16 ((S + i) % 2 ^ 64)) address c))
        c.difficulty = false := hfail 0 (Nat.succ_pos j)
    have hfail2 : ∀ t, t < j →
        meets_difficulty (oracle (build_preimage
          (nonceHex16 ((S + (i + 1) + t) % 2 ^ 64)) address c)) c.difficulty = false := by
      intro t ht
      have e2 : S + i + (t + 1) = S + (i + 1) + t := by omega
      have h2 := hfail (t + 1) (by omega)
      rwa [e2] at h2
    have ih := mineTrace_found oracle address c S j k (i + 1) (by omega) hsucc hfail2
    simp only [mineTrace]
    rw [if_neg (by rw [hfail0]; simp), ih, rangeMapSucc (j + 1) S i (2 ^ 64), e1]

/-- Running the loop over two challenges that build identical preimages
and carry identical difficulty gives identical results. -/
theorem mineLoop_congr (oracle : String → List Nat) (address : String) (c1 c2 : Challenge)
    (S : Nat) (hdiff : c1.difficulty = c2.difficulty)
    (hpre : ∀ nonce, build_preimage nonce address c1 = build_preimage nonce address c2) :
    ∀ (k i : Nat), mineLoop oracle address c1 S i k = mineLoop oracle address c2 S i k
  | 0, _ => rfl
  | k + 1, i => by
    simp only [mineLoop]
    rw [hpre, hdiff, mineLoop_congr oracle address c1 c2 S hdiff hpre k (i + 1)]

/-! ### Preimage Encoder and Search Loop claims -/

/-- C3: the preimage is the literal separator-free UTF-8 concatenation
of nonce text, identity, `challenge_id`, `difficulty` (hex text),
`no_pre_mine`, `latest_submission`, `no_pre_mine_hour`, in that order;
repeated calls on identical inputs agree; and the nonce text fed to it
by the search loop is the 64-bit nonce rendered as exactly 16 lowercase
zero-padded hex digits (value-faithfully, no prefix). -/
theorem build_preimage_encoding (nonce address : String) (c : Challenge) (n : Nat)
    (hn : n < 2 ^ 64) :
    (build_preimage nonce address c).data =
        nonce.data ++ address.data ++ c.challenge_id.data ++ c.difficulty.data ++
          c.no_pre_mine.data ++ c.latest_submission.data ++ c.no_pre_mine_hour.data ∧
      build_preimage nonce address c = build_preimage nonce address c ∧
      (nonceHex16 n).length = 16 ∧
      (∀ ch ∈ (nonceHex16 n).data, ch ∈ ("0123456789abcdef").data) ∧
      hexListVal (nonceHex16 n).data = n ∧
      (∀ oracle S N r, mine_challenge oracle address c S N = some r →
        ∃ i, i < N ∧ r = nonceHex16 ((S + i) % 2 ^ 64)) := by
  have h16 : n < 16 ^ 16 := by
    have : (16 : Nat) ^ 16 = 2 ^ 64 := by norm_num
    omega
  refine ⟨?_, rfl, ?_, ?_, ?_, ?_⟩
  · simp [build_preimage, String.data_append, List.append_assoc]
  · show (natToHexDigits 16 n).length = 16
    exact natToHexDigits_length 16 n
  · exact natToHexDigits_mem 16 n
  · show (natToHexDigits 16 n).foldl (fun a c => 16 * a + (hexVal c).getD 0) 0 = n
    rw [foldl_natToHexDigits 16 n 0 h16]
    ring
  · intro oracle S N r h
    obtain ⟨j, hj, hr⟩ := mineLoop_some oracle address c S N 0 r h
    exact ⟨j, hj, hr⟩

/-- C3 witness: the rendering of 255 has length 16 and reads back as
255, and a concrete preimage splits into the seven fields. -/
theorem build_preimage_encoding_witness :
    (build_preimage "00" "ad" ⟨"c1", 1, 2, "00ff", "np", "ls", "nh"⟩).data =
        ("00" : String).data ++ ("ad" : String).data ++ ("c1" : String).data ++
          ("00ff" : String).data ++ ("np" : String).data ++ ("ls" : String).data ++
          ("nh" : String).data ∧
      (nonceHex16 255).length = 16 ∧ hexListVal (nonceHex16 255).data = 255 :=
  ⟨(build_preimage_encoding "00" "ad" ⟨"c1", 1, 2, "00ff", "np", "ls", "nh"⟩ 255
      (by norm_num)).1,
    (build_preimage_encoding "00" "ad" ⟨"c1", 1, 2, "00ff", "np", "ls", "nh"⟩ 255
      (by norm_num)).2.2.1,
    (build_preimage_encoding "00" "ad" ⟨"c1", 1, 2, "00ff", "np", "ls", "nh"⟩ 255
      (by norm_num)).2.2.2.2.1⟩

/-- C4: with budget `N` (at most `2 ^ 64`, as a `u64` budget is), the
attempts evaluated are an in-order prefix of
`S % 2^64, (S+1) % 2^64, ..., (S+N-1) % 2^64`; that planned sequence has
no repeats; and an exhausted run evaluates exactly all of it — no gaps:
attempt `i` uses nonce `(S + i) % 2 ^ 64`. -/
theorem mine_nonce_coverage (oracle : String → List Nat) (address : String)
    (c : Challenge) (S N : Nat) (hN : N ≤ 2 ^ 64) :
    ((mineTrace oracle address c S 0 N).1 <+:
        (List.range N).map (fun i => (S + i) % 2 ^ 64)) ∧
      ((List.range N).map (fun i => (S + i) % 2 ^ 64)).Nodup ∧
      ((mineTrace oracle address c S 0 N).2 = none →
        (mineTrace oracle address c S 0 N).1 =
          (List.range N).map (fun i => (S + i) % 2 ^ 64)) := by
  refine ⟨mineTrace_prefix_window oracle address c S N 0, ?_,
    mineTrace_none oracle address c S N 0⟩
  refine List.Nodup.map_on ?_ (List.nodup_range N)
  intro x hx y hy hxy
  rw [List.mem_range] at hx hy
  omega

/-- C4 witness: three attempts from seed 5 with a never-matching oracle
visit exactly `5 % 2^64, 6 % 2^64, 7 % 2^64`. -/
theorem mine_nonce_coverage_witness :
    ((mineTrace (fun _ => [255]) "ad" ⟨"c1", 1, 2, "00000000", "np", "ls", "nh"⟩ 5 0 3).1 <+:
        (List.range 3).map (fun i => (5 + i) % 2 ^ 64)) ∧
      ((List.range 3).map (fun i => (5 + i) % 2 ^ 64)).Nodup ∧
      ((mineTrace (fun _ => [255]) "ad" ⟨"c1", 1, 2, "00000000", "np", "ls", "nh"⟩ 5 0 3).2 =
          none →
        (mineTrace (fun _ => [255]) "ad" ⟨"c1", 1, 2, "00000000", "np", "ls", "nh"⟩ 5 0 3).1 =
          (List.range 3).map (fun i => (5 + i) % 2 ^ 64)) :=
  mine_nonce_coverage (fun _ => [255]) "ad" ⟨"c1", 1, 2, "00000000", "np", "ls", "nh"⟩ 5 3
    (by norm_num)

/-- C5: if attempt `j` is the first whose digest satisfies the
difficulty and the budget reaches it, the loop returns the 16-hex-digit
nonce text of that attempt and evaluates no nonce beyond attempt `j`. -/
theorem mine_found_immediately (oracle : String → List Nat) (address : String)
    (c : Challenge) (S N j : Nat) (hj : j < N)
    (hsucc : meets_difficulty
      (oracle (build_preimage (nonceHex16 ((S + j) % 2 ^ 64)) address c))
      c.difficulty = true)
    (hfail : ∀ t, t < j →
      meets_difficulty (oracle (build_preimage (nonceHex16 ((S + t) % 2 ^ 64)) address c))
        c.difficulty = false) :
    mine_challenge oracle address c S N = some (nonceHex16 ((S + j) % 2 ^ 64)) ∧
      (mineTrace oracle address c S 0 N).1 =
        (List.range (j + 1)).map (fun t => (S + t) % 2 ^ 64) := by
  have h := mineTrace_found oracle address c S j N 0 hj hsucc hfail
  constructor
  · rw [mine_challenge, ← mineTrace_snd oracle address c S N 0, h]
    rfl
  · rw [h]
    rfl

/-- C5 witness: the concrete scenario of the spec — seed 0, identity
"addrX", difficulty `"00ffffffff"`, and a stub oracle whose digest
starts with byte `0x00`: the evaluator accepts attempt 0 and the loop
returns `"0000000000000000"` having evaluated only nonce 0. -/
theorem mine_found_immediately_witness :
    mine_challenge (fun _ => List.replicate 64 0) "addrX"
        ⟨"c1", 1, 1, "00ffffffff", "seedA", "ls1", "h1"⟩ 0 1 =
        some (nonceHex16 ((0 + 0) % 2 ^ 64)) ∧
      (mineTrace (fun _ => List.replicate 64 0) "addrX"
          ⟨"c1", 1, 1, "00ffffffff", "seedA", "ls1", "h1"⟩ 0 0 1).1 =
        (List.range (0 + 1)).map (fun t => (0 + t) % 2 ^ 64) ∧
      nonceHex16 ((0 + 0) % 2 ^ 64) = "0000000000000000" := by
  have h := mine_found_immediately (fun _ => List.replicate 64 0) "addrX"
    ⟨"c1", 1, 1, "00ffffffff", "seedA", "ls1", "h1"⟩ 0 1 0 (by decide) (by decide)
    (fun t ht => absurd ht (Nat.not_lt_zero t))
  exact ⟨h.1, h.2, by decide⟩

/-- C6: with a zero iteration budget the loop returns no result and
evaluates no attempt at all, whatever the oracle — in particular the
Hash Oracle is never consulted. -/
theorem mine_zero_budget (oracle : String → List Nat) (address : String)
    (c : Challenge) (S : Nat) :
    mine_challenge oracle address c S 0 = none ∧
      (mineTrace oracle address c S 0 0).1 = [] :=
  ⟨rfl, rfl⟩

/-- C9: `day` and `challenge_number` do not influence the search — two
challenges that agree on the five searched fields yield identical
preimages for every nonce and identity, and identical search results
for every oracle, seed and budget. -/
theorem day_noninterference (c1 c2 : Challenge)
    (hid : c1.challenge_id = c2.challenge_id)
    (hdiff : c1.difficulty = c2.difficulty)
    (hnp : c1.no_pre_mine = c2.no_pre_mine)
    (hls : c1.latest_submission = c2.latest_submission)
    (hnh : c1.no_pre_mine_hour = c2.no_pre_mine_hour) :
    (∀ nonce address, build_preimage nonce address c1 = build_preimage nonce address c2) ∧
      (∀ oracle address S N,
        mine_challenge oracle address c1 S N = mine_challenge oracle address c2 S N) := by
  have hpre : ∀ nonce address,
      build_preimage nonce address c1 = build_preimage nonce address c2 := by
    intro nonce address
    simp [build_preimage, hid, hdiff, hnp, hls, hnh]
  exact ⟨hpre, fun oracle address S N =>
    mineLoop_congr oracle address c1 c2 S hdiff (fun nonce => hpre nonce address) N 0⟩

/-- C9 witness: two challenges differing only in `day` and
`challenge_number` give the same preimage and the same search result. -/
theorem day_noninterference_witness :
    build_preimage "00" "ad" ⟨"c1", 1, 1, "00ff", "np", "ls", "nh"⟩ =
        build_preimage "00" "ad" ⟨"c1", 2, 9, "00ff", "np", "ls", "nh"⟩ ∧
      mine_challenge (fun _ => [0]) "ad" ⟨"c1", 1, 1, "00ff", "np", "ls", "nh"⟩ 3 2 =
        mine_challenge (fun _ => [0]) "ad" ⟨"c1", 2, 9, "00ff", "np", "ls", "nh"⟩ 3 2 :=
  ⟨(day_noninterference ⟨"c1", 1, 1, "00ff", "np", "ls", "nh"⟩
      ⟨"c1", 2, 9, "00ff", "np", "ls", "nh"⟩ rfl rfl rfl rfl rfl).1 "00" "ad",
    (day_noninterference ⟨"c1", 1, 1, "00ff", "np", "ls", "nh"⟩
      ⟨"c1", 2, 9, "00ff", "np", "ls", "nh"⟩ rfl rfl rfl rfl rfl).2 (fun _ => [0]) "ad" 3 2⟩

end Scavenger
